import Mathlib

/-!
Verification of the file-manager repository.

The development shallowly embeds the core of the repository:
* the hierarchy store of `src/lib/supabase-api.ts` (folders with
  materialized paths, `createFolder`, `deleteFolder` with the
  `ON DELETE CASCADE` actions of `supabase-setup.sql`, `uploadFile`,
  `getFolderBreadcrumbs`),
* the in-memory archive job queue (`InMemoryQueue` in `src/lib/queue.ts`),
* the zip worker (`processZipFiles` in `src/lib/zip.ts`) and the
  `zip_jobs` row updates of `DatabaseOps.updateZipJobStatus`
  (`src/lib/database.ts`).

Database rows are lists of records; row-level security is modelled by
filtering visible rows on the caller's user id, exactly as the policies
of `supabase-setup.sql` do.
-/

namespace FM

/-! ## Character-level path splitting

`getFolderBreadcrumbs` computes `folder.path.split('/').filter(part => part)`.
`splitSlash` is the JavaScript `split('/')` on the character list of the
string (`"".split('/') = [""]`, separators produce empty segments), and
`segsOf` applies the truthiness filter that drops empty segments. -/

def splitSlash : List Char → List (List Char)
  | [] => [[]]
  | c :: cs =>
    if c = '/' then [] :: splitSlash cs
    else
      match splitSlash cs with
      | [] => [[c]]
      | h :: t => (c :: h) :: t

def segsOf (s : String) : List String :=
  ((splitSlash s.data).filter (fun p => p ≠ [])).map String.mk

/-! ## Lexicographic string comparison

The breadcrumb query ends with `.order('path')`: the database returns the
rows ordered by the `path` column ascending.  `strLe` is lexicographic
comparison of character lists by code point, the order the database uses
on these ASCII paths. -/

def strLe : List Char → List Char → Bool
  | [], _ => true
  | _ :: _, [] => false
  | a :: as, b :: bs =>
    if a < b then true
    else if b < a then false
    else strLe as bs

/-! ## Data model

`Folder` and `File` rows follow the interfaces of `src/lib/supabase-api.ts`
and the tables of `supabase-setup.sql` (timestamp columns that no claim
touches are omitted).  Blobs in the `files` storage bucket are modelled as
pairs of storage path and byte content. -/

structure Folder where
  id : String
  name : String
  parent_id : Option String
  user_id : String
  path : String
deriving DecidableEq

structure FileRec where
  id : String
  name : String
  size : Nat
  checksum : String
  folder_id : String
  user_id : String
  storage_path : String
  mime_type : String
deriving DecidableEq

structure FMState where
  folders : List Folder
  files : List FileRec
  storage : List (String × List Nat)
deriving DecidableEq

inductive ApiError
  | notFound
  | notAuthenticated
deriving DecidableEq

/-- Embedding of `supabaseApi.createFolder` (src/lib/supabase-api.ts):
with a parent id the parent row is fetched (`.single()` fails when no row
is visible; row-level security restricts visibility to the caller's rows)
and the stored path is `parent.path + parent.name + "/"`; without a
parent the path is `"/"`.  The new row is inserted with the caller's
user id. -/
def createFolder (s : FMState) (uid name : String) (parentId : Option String)
    (newId : String) : Except ApiError (Folder × FMState) :=
  match parentId with
  | none =>
    let f : Folder :=
      { id := newId, name := name, parent_id := none, user_id := uid, path := "/" }
    Except.ok (f, { s with folders := s.folders ++ [f] })
  | some pid =>
    match s.folders.find? (fun g => g.id == pid && g.user_id == uid) with
    | none => Except.error ApiError.notFound
    | some parent =>
      let f : Folder :=
        { id := newId, name := name, parent_id := some pid, user_id := uid
          path := parent.path ++ parent.name ++ "/" }
      Except.ok (f, { s with folders := s.folders ++ [f] })

/-- One round of the `ON DELETE CASCADE` referential action on
`fm_folders.parent_id`: every folder whose parent is already marked for
deletion is marked as well. -/
def cascadeStep (folders : List Folder) (ids : List String) : List String :=
  ids ++ (folders.filter (fun f =>
    decide (f.id ∉ ids) &&
      match f.parent_id with
      | some p => decide (p ∈ ids)
      | none => false)).map (fun f => f.id)

def cascadeIds (folders : List Folder) : Nat → List String → List String
  | 0, ids => ids
  | n + 1, ids => cascadeIds folders n (cascadeStep folders ids)

/-- The ids of all folder rows removed when the row `fid` is deleted:
the transitive closure of the child relation starting at `fid`.
`folders.length` rounds always reach the fixed point. -/
def deletedIds (s : FMState) (fid : String) : List String :=
  cascadeIds s.folders s.folders.length [fid]

/-- A deletion set is closed when it already contains every child of a
member: `cascadeStep` adds nothing new. -/
def CascadeClosed (folders : List Folder) (ids : List String) : Prop :=
  ∀ f ∈ folders, ∀ p, f.parent_id = some p → p ∈ ids → f.id ∈ ids

/-- Number of folders not yet marked for deletion; strictly decreases on
every productive `cascadeStep`. -/
def cascadeMeasure (folders : List Folder) (ids : List String) : Nat :=
  folders.countP (fun f => decide (f.id ∉ ids))

/-- Embedding of `supabaseApi.deleteFolder` together with the referential
actions of `supabase-setup.sql`: the `DELETE` removes the row when it is
visible to the caller (row-level security checks `user_id`), and
`ON DELETE CASCADE` on `fm_folders.parent_id` and `fm_files.folder_id`
removes all descendant folder rows and the file rows inside them.  The
API issues only the database delete: storage blobs are not touched. -/
def deleteFolder (s : FMState) (uid fid : String) : FMState :=
  if s.folders.any (fun f => f.id == fid && f.user_id == uid) then
    { folders := s.folders.filter (fun f => decide (f.id ∉ deletedIds s fid))
      files := s.files.filter (fun f => decide (f.folder_id ∉ deletedIds s fid))
      storage := s.storage }
  else s

/-- Checksum computed by `supabaseApi.uploadFile`
(src/lib/supabase-api.ts line 161):
`` `${file.size}_${file.name}_${Date.now()}` ``. -/
def uploadChecksum (size : Nat) (name : String) (now : Nat) : String :=
  toString size ++ "_" ++ name ++ "_" ++ toString now

/-- Embedding of `supabaseApi.uploadFile`: the blob is written to
`{user.id}/{fileId}_{file.name}` in the storage bucket, the checksum is
`uploadChecksum`, and the metadata row is inserted.  `content` is the
byte content of the uploaded file; note that it flows only into the
stored blob, never into the checksum. -/
def uploadFile (s : FMState) (uid name : String) (size : Nat) (mime : String)
    (folderId fileId : String) (content : List Nat) (now : Nat) :
    FileRec × FMState :=
  let storagePath := uid ++ "/" ++ fileId ++ "_" ++ name
  let f : FileRec :=
    { id := fileId, name := name, size := size
      checksum := uploadChecksum size name now
      folder_id := folderId, user_id := uid
      storage_path := storagePath, mime_type := mime }
  (f, { s with files := s.files ++ [f], storage := s.storage ++ [(storagePath, content)] })

structure Crumb where
  id : String
  name : String
  path : String
deriving DecidableEq

def insertByPath (f : Folder) : List Folder → List Folder
  | [] => [f]
  | g :: t => if strLe f.path.data g.path.data then f :: g :: t else g :: insertByPath f t

/-- The database's `.order('path')`: rows sorted by the `path` column
ascending. -/
def orderByPath : List Folder → List Folder
  | [] => []
  | f :: t => insertByPath f (orderByPath t)

/-- Embedding of `supabaseApi.getFolderBreadcrumbs`: fetch the folder,
split its path into segments, fetch all visible folders whose *name* is
one of the segments (`.in('name', pathParts)`) ordered by path, and
append the folder itself. -/
def getFolderBreadcrumbs (s : FMState) (uid folderId : String) :
    Except ApiError (List Crumb) :=
  match s.folders.find? (fun f => f.id == folderId && f.user_id == uid) with
  | none => Except.error ApiError.notFound
  | some f =>
    Except.ok
      ((if (segsOf f.path).length > 0 then
          orderByPath (s.folders.filter
            (fun g => g.user_id == uid && decide (g.name ∈ segsOf f.path)))
        else []).map (fun g => ⟨g.id, g.name, g.path⟩) ++
        [⟨folderId, f.name, f.path⟩])

/-- The delete control in `FolderTree.tsx` is rendered only when
`folder.name !== 'Root'`. -/
def uiShowsDelete (f : Folder) : Bool :=
  f.name != "Root"

/-! ## Hierarchy-store predicates -/

/-- One folder row is path-consistent: a root row stores `"/"`, and every
other row stores exactly `parent.path + parent.name + "/"` for a live
parent row of the same owner. -/
def folderPathOk (s : FMState) (f : Folder) : Prop :=
  match f.parent_id with
  | none => f.path = "/"
  | some pid =>
    ∃ p ∈ s.folders, p.id = pid ∧ p.user_id = f.user_id ∧
      f.path = p.path ++ p.name ++ "/"

instance (s : FMState) (f : Folder) : Decidable (folderPathOk s f) :=
  match hp : f.parent_id with
  | none => decidable_of_iff (f.path = "/") (by unfold folderPathOk; rw [hp])
  | some pid =>
    decidable_of_iff
      (∃ p ∈ s.folders, p.id = pid ∧ p.user_id = f.user_id ∧
        f.path = p.path ++ p.name ++ "/")
      (by unfold folderPathOk; rw [hp])

/-- The materialized-path invariant, over the whole table. -/
def pathConsistent (s : FMState) : Prop :=
  ∀ f ∈ s.folders, folderPathOk s f

instance (s : FMState) : Decidable (pathConsistent s) :=
  decidable_of_iff (∀ f ∈ s.folders, folderPathOk s f) Iff.rfl

/-- Chain of strict ancestors of a folder, listed from the root down to
the folder's parent. -/
inductive ChainTo (s : FMState) : List Folder → Folder → Prop
  | root {f : Folder} : f.parent_id = none → ChainTo s [] f
  | step {c : List Folder} {p f : Folder} :
      p ∈ s.folders → f.parent_id = some p.id → ChainTo s c p →
      ChainTo s (c ++ [p]) f

/-- Membership in the subtree rooted at folder id `fid`: the folder
itself, or transitively any child of a member. -/
inductive InSubtree (folders : List Folder) (fid : String) : String → Prop
  | base : InSubtree folders fid fid
  | step {p : String} {f : Folder} :
      f ∈ folders → f.parent_id = some p → InSubtree folders fid p →
      InSubtree folders fid f.id

/-! ## The in-memory archive job queue

Embedding of `InMemoryQueue` (src/lib/queue.ts).  The `Map` of jobs is a
list in insertion order (`addJob` only ever inserts fresh uuid keys, so
`set` appends).  The `processing` flag together with the position of the
drain loop is the `phase`: `idle` (flag false), `scanning` (flag set, the
loop is at its top, about to look for a pending job), `waitingOn id`
(flag set, the loop is suspended in `await this.processJob(job)` for the
job with that id; `processJob` has already set the status to
`processing`). -/

inductive QStatus
  | pending
  | processing
  | completed
  | failed
deriving DecidableEq

/-- A queue job; all jobs have `type: 'zip'`, and the fields that no
claim touches (`data`, `createdAt`, `processedAt`) are omitted. -/
structure QJob where
  id : String
  status : QStatus
deriving DecidableEq

inductive LoopPhase
  | idle
  | scanning
  | waitingOn (id : String)
deriving DecidableEq

structure QState where
  jobs : List QJob
  phase : LoopPhase
deriving DecidableEq

/-- `Array.from(this.jobs.values()).find(job => job.status === 'pending')`:
the first pending job in insertion order. -/
def firstPending (jobs : List QJob) : Option QJob :=
  jobs.find? (fun j => j.status == QStatus.pending)

/-- `updateJobStatus`: mutate the status of the job stored under the key
`id` (`Map` keys are unique, so at most one entry changes). -/
def setStatus (jobs : List QJob) (id : String) (st : QStatus) : List QJob :=
  jobs.map (fun j => if j.id == id then { j with status := st } else j)

def statusRank : QStatus → Nat
  | QStatus.pending => 0
  | QStatus.processing => 1
  | QStatus.completed => 2
  | QStatus.failed => 2

def statusOf (s : QState) (id : String) : Option QStatus :=
  (s.jobs.find? (fun j => j.id == id)).map (fun j => j.status)

/-- Small-step semantics of the queue, at the granularity of the
JavaScript suspension points.
* `submit` / `submitBusy`: `addJob` appends a fresh pending job and calls
  `processQueue`; when the flag is clear the drain loop starts, otherwise
  the call returns at the `if (this.processing) return`.
* `claimJob`: a loop iteration finds the first pending job and
  `processJob` marks it `processing`, then awaits the zip work.
* `finishJob`: the awaited work settles; `processJob` marks the job
  `completed` on resolution and `failed` on rejection, and the loop
  returns to its top.
* `exitLoop`: no pending job is found, the loop breaks and clears the
  flag. -/
inductive QStep : QState → QState → Prop
  | submit (s : QState) (id : String)
      (hfresh : ∀ j ∈ s.jobs, j.id ≠ id) (hidle : s.phase = LoopPhase.idle) :
      QStep s ⟨s.jobs ++ [⟨id, QStatus.pending⟩], LoopPhase.scanning⟩
  | submitBusy (s : QState) (id : String)
      (hfresh : ∀ j ∈ s.jobs, j.id ≠ id) (hbusy : s.phase ≠ LoopPhase.idle) :
      QStep s ⟨s.jobs ++ [⟨id, QStatus.pending⟩], s.phase⟩
  | claimJob (s : QState) (j : QJob)
      (hphase : s.phase = LoopPhase.scanning)
      (hfind : firstPending s.jobs = some j) :
      QStep s ⟨setStatus s.jobs j.id QStatus.processing, LoopPhase.waitingOn j.id⟩
  | finishJob (s : QState) (jid : String) (ok : Bool)
      (hphase : s.phase = LoopPhase.waitingOn jid) :
      QStep s ⟨setStatus s.jobs jid
        (if ok then QStatus.completed else QStatus.failed), LoopPhase.scanning⟩
  | exitLoop (s : QState)
      (hphase : s.phase = LoopPhase.scanning)
      (hnone : firstPending s.jobs = none) :
      QStep s ⟨s.jobs, LoopPhase.idle⟩

/-- States reachable from the initial empty queue (`jobs = new Map()`,
flag clear). -/
inductive Reach : QState → Prop
  | init : Reach ⟨[], LoopPhase.idle⟩
  | next {s s' : QState} : Reach s → QStep s s' → Reach s'

/-- Safety invariant of the queue: `Map` keys are unique; a job is
`processing` exactly while the drain loop awaits it (so at most one at a
time); and in insertion order the statuses form the pattern
terminal* (processing | ε) pending* — every job that is no longer
pending is preceded only by jobs that already reached a terminal
status. -/
def QInv (s : QState) : Prop :=
  (s.jobs.map (fun j => j.id)).Nodup ∧
  (∀ j ∈ s.jobs, j.status = QStatus.processing → s.phase = LoopPhase.waitingOn j.id) ∧
  (∀ jid, s.phase = LoopPhase.waitingOn jid →
    ∃ j ∈ s.jobs, j.id = jid ∧ j.status = QStatus.processing) ∧
  s.jobs.Pairwise (fun a b => b.status ≠ QStatus.pending →
    a.status = QStatus.completed ∨ a.status = QStatus.failed)

/-- A reachable queue state: `j1` was submitted, claimed by the drain
loop, and `j2` was submitted while the loop was busy with `j1`. -/
def sC : QState :=
  ⟨[⟨"j1", QStatus.processing⟩, ⟨"j2", QStatus.pending⟩], LoopPhase.waitingOn "j1"⟩

/-- A reachable queue state with `j1` claimed and being processed. -/
def sD : QState :=
  ⟨[⟨"j1", QStatus.processing⟩], LoopPhase.waitingOn "j1"⟩

/-- `processJob` as a function of the job's outcome: mark `processing`,
run the zip work, then mark `completed` when it resolves and `failed`
when it rejects.  `res` tells for each job id whether its zip work
resolves. -/
def processJobRun (res : String → Bool) (jobs : List QJob) (j : QJob) : List QJob :=
  setStatus (setStatus jobs j.id QStatus.processing) j.id
    (if res j.id then QStatus.completed else QStatus.failed)

def countPending (jobs : List QJob) : Nat :=
  jobs.countP (fun j => j.status == QStatus.pending)

/-- The drain loop of `processQueue`, with an explicit iteration budget:
each iteration processes the first pending job.  The loop of the source
is unbounded (`while (true)`); `countPending` iterations reach the state
in which it breaks. -/
def drainAux (res : String → Bool) : Nat → List QJob → List QJob
  | 0, jobs => jobs
  | n + 1, jobs =>
    match firstPending jobs with
    | none => jobs
    | some j => drainAux res n (processJobRun res jobs j)

/-- `processQueue` run to completion: drain the pending jobs, then clear
the `processing` flag. -/
def processQueueRun (res : String → Bool) (s : QState) : QState :=
  ⟨drainAux res (countPending s.jobs) s.jobs, LoopPhase.idle⟩

/-! ## The zip worker and the `zip_jobs` rows

`processZipFiles` (src/lib/zip.ts) resolves each requested file id
against the `files` table of `src/lib/database.ts`, includes it only when
the row exists, belongs to the requesting user and the file still exists
on disk, and adds it to the archive under its original `name`. -/

/-- A row of the `files` table of `src/lib/database.ts` (timestamps
omitted); `path` is the location of the stored bytes on disk. -/
structure DbFile where
  id : String
  name : String
  size : Nat
  checksum : String
  folder_id : String
  user_id : String
  path : String
  mime_type : String
deriving DecidableEq

/-- The environment `processZipFiles` reads: the `files` rows and the set
of paths that exist on disk (`fs.existsSync`). -/
structure ZipEnv where
  db : List DbFile
  disk : List String
deriving DecidableEq

/-- `DatabaseOps.getFileById`: point lookup by primary key. -/
def getFileById (env : ZipEnv) (fid : String) : Option DbFile :=
  env.db.find? (fun f => f.id == fid)

/-- One turn of the loop of `processZipFiles` (lines 35-40): resolve the
id, and produce the archive entry `(name, path)` when the row exists, is
owned by `userId` and its blob exists on disk, nothing otherwise. -/
def zipEntryFor (env : ZipEnv) (userId : String) (fid : String) :
    Option (String × String) :=
  match getFileById env fid with
  | some f =>
    if f.user_id == userId && decide (f.path ∈ env.disk) then
      some (f.name, f.path)
    else none
  | none => none

/-- The archive entries produced by `processZipFiles`: the loop's entries
for each requested id in request order. -/
def zipEntries (env : ZipEnv) (fileIds : List String) (userId : String) :
    List (String × String) :=
  fileIds.filterMap (zipEntryFor env userId)

inductive ZStatus
  | pending
  | processing
  | completed
  | failed
deriving DecidableEq

/-- A row of the `zip_jobs` table (src/lib/database.ts). -/
structure ZipJobRow where
  id : String
  user_id : String
  file_ids : String
  status : ZStatus
  download_url : Option String
  completed_at : Option Nat
deriving DecidableEq

/-- `DatabaseOps.updateZipJobStatus`: with a download url the update sets
`status`, `download_url` and `completed_at = CURRENT_TIMESTAMP`; without
one it runs `UPDATE zip_jobs SET status = ? WHERE id = ?`, touching only
`status`. -/
def updateZipJobStatus (row : ZipJobRow) (status : ZStatus)
    (downloadUrl : Option String) (now : Nat) : ZipJobRow :=
  match downloadUrl with
  | some url => { row with status := status, download_url := some url, completed_at := some now }
  | none => { row with status := status }

/-- The error paths of `processZipFiles`: both the `archive.on('error')`
handler and the surrounding `catch` run
`DatabaseOps.updateZipJobStatus(jobId, 'failed')` — no download url. -/
def zipJobFailurePath (row : ZipJobRow) (now : Nat) : ZipJobRow :=
  updateZipJobStatus row ZStatus.failed none now

/-- The success path of `processZipFiles`: the `output.on('close')`
handler runs `updateZipJobStatus(jobId, 'completed', '/api/zip/' + jobId)`. -/
def zipJobSuccessPath (row : ZipJobRow) (jobId : String) (now : Nat) : ZipJobRow :=
  updateZipJobStatus row ZStatus.completed (some ("/api/zip/" ++ jobId)) now

/-! ## Concrete fixtures used by witnesses and counterexamples -/

/-- A zip environment with three files; `b.pdf` belongs to another user. -/
def zenv : ZipEnv :=
  { db :=
      [ ⟨"a", "a.pdf", 3, "ka", "fol", "owner", "/za", "application/pdf"⟩
      , ⟨"b", "b.pdf", 4, "kb", "fol", "other", "/zb", "application/pdf"⟩
      , ⟨"c", "c.pdf", 5, "kc", "fol", "owner", "/zc", "application/pdf"⟩ ]
    disk := ["/za", "/zb", "/zc"] }

/-- A freshly inserted `zip_jobs` row (`createZipJob` stores no download
url and no completion time). -/
def zrow : ZipJobRow :=
  ⟨"job1", "owner", "[\"a\",\"c\"]", ZStatus.processing, none, none⟩

/-- A state holding just the auto-created root folder of user `u`. -/
def stRoot : FMState :=
  ⟨[⟨"r", "Root", none, "u", "/"⟩], [], []⟩

/-- The folder created by `createFolder stRoot "u" "Docs" (some "r") "d"`:
its stored path is `parent.path + parent.name + "/" = "/Root/"`. -/
def docsFolder : Folder :=
  ⟨"d", "Docs", some "r", "u", "/Root/"⟩

/-- `stRoot` after creating `Docs` under the root. -/
def stRootDocs : FMState :=
  ⟨[⟨"r", "Root", none, "u", "/"⟩, docsFolder], [], []⟩

/-- Root with a child folder `Docs` and a grandchild also named `Root`:
two distinct folders of the same owner share the name `Root`. -/
def stDupName : FMState :=
  ⟨[ ⟨"r", "Root", none, "u", "/"⟩
   , ⟨"d", "Docs", some "r", "u", "/Root/"⟩
   , ⟨"x", "Root", some "d", "u", "/Root/Docs/"⟩ ], [], []⟩

/-- Root with a child folder `Docs` holding one uploaded file whose blob
sits in storage. -/
def stWithFile : FMState :=
  ⟨[ ⟨"r", "Root", none, "u", "/"⟩
   , ⟨"d", "Docs", some "r", "u", "/Root/"⟩ ]
  , [⟨"f1", "a.pdf", 3, "k", "d", "u", "u/f1_a.pdf", "application/pdf"⟩]
  , [("u/f1_a.pdf", [37, 80, 68])]⟩

/-! ## General helper lemmas -/

theorem countP_lt_of {α : Type} {p q : α → Bool} {l : List α}
    (hpq : ∀ a ∈ l, p a = true → q a = true)
    {x : α} (hx : x ∈ l) (hqx : q x = true) (hpx : p x = false) :
    l.countP p < l.countP q := by
  induction l with
  | nil => cases hx
  | cons a t ih =>
    have hmono : t.countP p ≤ t.countP q :=
      List.countP_mono_left (fun b hb h => hpq b (List.mem_cons_of_mem a hb) h)
    rw [List.countP_cons, List.countP_cons]
    rcases List.mem_cons.mp hx with rfl | hxt
    · have h1 : (if p x = true then 1 else 0) = 0 := by simp [hpx]
      have h2 : (if q x = true then 1 else 0) = 1 := by simp [hqx]
      rw [h1, h2]
      omega
    · have hlt := ih (fun b hb h => hpq b (List.mem_cons_of_mem a hb) h) hxt
      have h1 : (if p a = true then 1 else 0) ≤ (if q a = true then 1 else 0) := by
        by_cases hpa : p a = true
        · simp [hpa, hpq a (List.mem_cons_self a t) hpa]
        · simp [hpa]
      omega

/-! ## Cascade-closure lemmas -/

theorem mem_cascadeStep_of_mem {folders : List Folder} {ids : List String}
    {x : String} (hx : x ∈ ids) : x ∈ cascadeStep folders ids :=
  List.mem_append_left _ hx

theorem mem_cascadeIds_of_mem (folders : List Folder) :
    ∀ (n : Nat) (ids : List String) (x : String), x ∈ ids →
      x ∈ cascadeIds folders n ids := by
  intro n
  induction n with
  | zero => intro ids x hx; exact hx
  | succ n ih => intro ids x hx; exact ih _ _ (mem_cascadeStep_of_mem hx)

theorem cascadeStep_of_closed {folders : List Folder} {ids : List String}
    (h : CascadeClosed folders ids) : cascadeStep folders ids = ids := by
  unfold cascadeStep
  have hnil : folders.filter (fun f =>
      decide (f.id ∉ ids) && match f.parent_id with
        | some p => decide (p ∈ ids)
        | none => false) = [] := by
    rw [List.filter_eq_nil_iff]
    intro f hf
    cases hp : f.parent_id with
    | none => simp [hp]
    | some p =>
      by_cases hpin : p ∈ ids
      · have hin := h f hf p hp hpin
        simp [hp, hin]
      · simp [hp, hpin]
  rw [hnil]
  simp

theorem cascadeIds_of_closed {folders : List Folder} {ids : List String}
    (h : CascadeClosed folders ids) :
    ∀ n : Nat, cascadeIds folders n ids = ids := by
  intro n
  induction n with
  | zero => rfl
  | succ n ih =>
    show cascadeIds folders n (cascadeStep folders ids) = ids
    rw [cascadeStep_of_closed h]
    exact ih

theorem cascadeStep_decrease {folders : List Folder} {ids : List String}
    (h : ¬ CascadeClosed folders ids) :
    cascadeMeasure folders (cascadeStep folders ids) < cascadeMeasure folders ids := by
  unfold CascadeClosed at h
  push_neg at h
  obtain ⟨f, hf, p, hp, hpin, hfid⟩ := h
  have hstep : f.id ∈ cascadeStep folders ids := by
    unfold cascadeStep
    apply List.mem_append_right
    apply List.mem_map_of_mem
    rw [List.mem_filter]
    exact ⟨hf, by simp [hp, hfid, hpin]⟩
  unfold cascadeMeasure
  refine countP_lt_of ?_ hf ?_ ?_
  · intro g _ hg
    rw [decide_eq_true_eq] at hg ⊢
    intro hmem
    exact hg (mem_cascadeStep_of_mem hmem)
  · rw [decide_eq_true_eq]
    exact hfid
  · simp [hstep]

theorem cascadeIds_closed (folders : List Folder) :
    ∀ (n : Nat) (ids : List String), cascadeMeasure folders ids ≤ n →
      CascadeClosed folders (cascadeIds folders n ids) := by
  intro n
  induction n with
  | zero =>
    intro ids h
    have h0 : cascadeMeasure folders ids = 0 := Nat.le_zero.mp h
    unfold cascadeMeasure at h0
    rw [List.countP_eq_zero] at h0
    intro f hf p _ _
    have hin := h0 f hf
    simp at hin
    exact hin
  | succ n ih =>
    intro ids h
    by_cases hc : CascadeClosed folders ids
    · show CascadeClosed folders (cascadeIds folders n (cascadeStep folders ids))
      rw [cascadeStep_of_closed hc, cascadeIds_of_closed hc]
      exact hc
    · show CascadeClosed folders (cascadeIds folders n (cascadeStep folders ids))
      apply ih
      have := cascadeStep_decrease hc
      omega

theorem deletedIds_closed (s : FMState) (fid : String) :
    CascadeClosed s.folders (deletedIds s fid) := by
  apply cascadeIds_closed
  unfold cascadeMeasure
  rw [List.countP_eq_length_filter]
  exact List.length_filter_le _ _

theorem inSubtree_of_mem_cascadeIds (folders : List Folder) (fid : String) :
    ∀ (n : Nat) (ids : List String),
      (∀ y ∈ ids, InSubtree folders fid y) →
      ∀ x ∈ cascadeIds folders n ids, InSubtree folders fid x := by
  intro n
  induction n with
  | zero => intro ids h x hx; exact h x hx
  | succ n ih =>
    intro ids h x hx
    refine ih _ ?_ x hx
    intro y hy
    unfold cascadeStep at hy
    rcases List.mem_append.mp hy with hl | hr
    · exact h y hl
    · rcases List.mem_map.mp hr with ⟨f, hfmem, rfl⟩
      rw [List.mem_filter] at hfmem
      obtain ⟨hfin, hpred⟩ := hfmem
      cases hp : f.parent_id with
      | none => rw [hp] at hpred; simp at hpred
      | some p =>
        rw [hp] at hpred
        rw [Bool.and_eq_true, decide_eq_true_eq, decide_eq_true_eq] at hpred
        exact InSubtree.step hfin hp (h p hpred.2)

theorem mem_deletedIds_of_inSubtree {s : FMState} {fid x : String}
    (h : InSubtree s.folders fid x) : x ∈ deletedIds s fid := by
  induction h with
  | base => exact mem_cascadeIds_of_mem _ _ _ _ (by simp)
  | step hfin hp _ ih => exact deletedIds_closed s fid _ hfin _ hp ih

theorem inSubtree_of_mem_deletedIds {s : FMState} {fid x : String}
    (h : x ∈ deletedIds s fid) : InSubtree s.folders fid x := by
  refine inSubtree_of_mem_cascadeIds s.folders fid _ _ ?_ x h
  intro y hy
  rw [List.mem_singleton] at hy
  subst hy
  exact InSubtree.base

/-! ## Queue lemmas -/

theorem setStatus_setStatus (jobs : List QJob) (id : String) (a b : QStatus) :
    setStatus (setStatus jobs id a) id b = setStatus jobs id b := by
  unfold setStatus
  rw [List.map_map]
  congr 1
  funext j
  by_cases h : (j.id == id) = true
  · simp [Function.comp, h]
  · simp [Function.comp, h]

theorem processJobRun_pending_decrease (res : String → Bool)
    (jobs : List QJob) (j : QJob) (hfind : firstPending jobs = some j) :
    countPending (processJobRun res jobs j) < countPending jobs := by
  have hfind' : jobs.find? (fun j => j.status == QStatus.pending) = some j := hfind
  have hmem : j ∈ jobs := List.mem_of_find?_eq_some hfind'
  have hpj : (j.status == QStatus.pending) = true :=
    List.find?_some (p := fun k : QJob => k.status == QStatus.pending) hfind'
  rw [processJobRun, setStatus_setStatus]
  unfold countPending setStatus
  rw [List.countP_map]
  refine countP_lt_of ?_ hmem hpj ?_
  · intro a _ h
    simp only [Function.comp] at h
    by_cases ha : (a.id == j.id) = true
    · rw [if_pos ha] at h
      cases hres : res j.id <;> rw [hres] at h <;> simp at h
    · rw [if_neg ha] at h
      exact h
  · simp only [Function.comp]
    rw [if_pos (beq_self_eq_true j.id)]
    cases hres : res j.id <;> simp

theorem drainAux_exhausts (res : String → Bool) :
    ∀ (n : Nat) (jobs : List QJob), countPending jobs ≤ n →
      firstPending (drainAux res n jobs) = none := by
  intro n
  induction n with
  | zero =>
    intro jobs h
    have h0 : countPending jobs = 0 := Nat.le_zero.mp h
    unfold countPending at h0
    rw [List.countP_eq_zero] at h0
    unfold drainAux firstPending
    rw [List.find?_eq_none]
    exact h0
  | succ n ih =>
    intro jobs h
    unfold drainAux
    cases hf : firstPending jobs with
    | none => exact hf
    | some j =>
      apply ih
      have := processJobRun_pending_decrease res jobs j hf
      omega

theorem setStatus_id_map (jobs : List QJob) (tid : String) (st : QStatus) :
    (setStatus jobs tid st).map (fun j => j.id) = jobs.map (fun j => j.id) := by
  unfold setStatus
  rw [List.map_map]
  apply List.map_congr_left
  intro a _
  by_cases h : (a.id == tid) = true <;> simp [Function.comp, h]

theorem setStatus_split (as bs : List QJob) (j : QJob) (st : QStatus)
    (ha : ∀ a ∈ as, a.id ≠ j.id) (hb : ∀ b ∈ bs, b.id ≠ j.id) :
    setStatus (as ++ j :: bs) j.id st = as ++ { j with status := st } :: bs := by
  unfold setStatus
  rw [List.map_append, List.map_cons]
  have h1 : List.map (fun k => if k.id == j.id then { k with status := st } else k) as = as := by
    calc List.map (fun k => if k.id == j.id then { k with status := st } else k) as
        = List.map id as := by
          apply List.map_congr_left
          intro a hamem
          have : (a.id == j.id) = false := by
            rw [beq_eq_false_iff_ne]
            exact ha a hamem
          simp [this]
      _ = as := List.map_id as
  have h2 : List.map (fun k => if k.id == j.id then { k with status := st } else k) bs = bs := by
    calc List.map (fun k => if k.id == j.id then { k with status := st } else k) bs
        = List.map id bs := by
          apply List.map_congr_left
          intro b hbmem
          have : (b.id == j.id) = false := by
            rw [beq_eq_false_iff_ne]
            exact hb b hbmem
          simp [this]
      _ = bs := List.map_id bs
  rw [h1, h2]
  have h3 : (if j.id == j.id then { j with status := st } else j) = { j with status := st } := by
    rw [if_pos (beq_self_eq_true j.id)]
  rw [h3]

theorem find?_id_setStatus (jobs : List QJob) (tid id : String) (st : QStatus) :
    (setStatus jobs tid st).find? (fun j => j.id == id) =
      (jobs.find? (fun j => j.id == id)).map
        (fun j => if j.id == tid then { j with status := st } else j) := by
  induction jobs with
  | nil => rfl
  | cons a t ih =>
    by_cases hat : (a.id == tid) = true
    · have hset : setStatus (a :: t) tid st =
          { a with status := st } :: setStatus t tid st := by
        unfold setStatus
        rw [List.map_cons, if_pos hat]
      rw [hset]
      by_cases hai : (a.id == id) = true
      · have h1 : List.find? (fun j : QJob => j.id == id)
            ({ a with status := st } :: setStatus t tid st) =
              some { a with status := st } :=
          List.find?_cons_of_pos _ hai
        have h2 : List.find? (fun j : QJob => j.id == id) (a :: t) = some a :=
          List.find?_cons_of_pos _ hai
        rw [h1, h2]
        simp only [Option.map_some']
        rw [if_pos hat]
      · have h1 : List.find? (fun j : QJob => j.id == id)
            ({ a with status := st } :: setStatus t tid st) =
              List.find? (fun j : QJob => j.id == id) (setStatus t tid st) :=
          List.find?_cons_of_neg _ hai
        have h2 : List.find? (fun j : QJob => j.id == id) (a :: t) =
            List.find? (fun j : QJob => j.id == id) t :=
          List.find?_cons_of_neg _ hai
        rw [h1, h2]
        exact ih
    · have hset : setStatus (a :: t) tid st = a :: setStatus t tid st := by
        unfold setStatus
        rw [List.map_cons, if_neg hat]
      rw [hset]
      by_cases hai : (a.id == id) = true
      · have h1 : List.find? (fun j : QJob => j.id == id)
            (a :: setStatus t tid st) = some a :=
          List.find?_cons_of_pos _ hai
        have h2 : List.find? (fun j : QJob => j.id == id) (a :: t) = some a :=
          List.find?_cons_of_pos _ hai
        rw [h1, h2]
        simp only [Option.map_some']
        rw [if_neg hat]
      · have h1 : List.find? (fun j : QJob => j.id == id)
            (a :: setStatus t tid st) =
              List.find? (fun j : QJob => j.id == id) (setStatus t tid st) :=
          List.find?_cons_of_neg _ hai
        have h2 : List.find? (fun j : QJob => j.id == id) (a :: t) =
            List.find? (fun j : QJob => j.id == id) t :=
          List.find?_cons_of_neg _ hai
        rw [h1, h2]
        exact ih

theorem qinv_init : QInv ⟨[], LoopPhase.idle⟩ := by
  refine ⟨List.nodup_nil, ?_, ?_, List.Pairwise.nil⟩
  · intro j hj; cases hj
  · intro jid h; cases h

theorem qinv_step {s s' : QState} (hinv : QInv s) (hstep : QStep s s') : QInv s' := by
  obtain ⟨hnd, hproc, hwait, hord⟩ := hinv
  cases hstep with
  | submit id hfresh hidle =>
    refine ⟨?_, ?_, ?_, ?_⟩
    · show (List.map _ (s.jobs ++ [⟨id, QStatus.pending⟩])).Nodup
      rw [List.map_append, List.nodup_append]
      refine ⟨hnd, by simp, ?_⟩
      intro x hx1 hx2
      rw [List.mem_map] at hx1
      obtain ⟨j, hj, rfl⟩ := hx1
      simp at hx2
      exact hfresh j hj hx2
    · intro j hj hst
      rcases List.mem_append.mp hj with hold | hnew
      · have hw := hproc j hold hst
        rw [hidle] at hw
        cases hw
      · rw [List.mem_singleton] at hnew
        subst hnew
        cases hst
    · intro jid h
      cases h
    · show List.Pairwise _ (s.jobs ++ [⟨id, QStatus.pending⟩])
      rw [List.pairwise_append]
      refine ⟨hord, by simp, ?_⟩
      intro a _ b hb
      rw [List.mem_singleton] at hb
      subst hb
      intro hbst
      exact absurd rfl hbst
  | submitBusy id hfresh hbusy =>
    refine ⟨?_, ?_, ?_, ?_⟩
    · show (List.map _ (s.jobs ++ [⟨id, QStatus.pending⟩])).Nodup
      rw [List.map_append, List.nodup_append]
      refine ⟨hnd, by simp, ?_⟩
      intro x hx1 hx2
      rw [List.mem_map] at hx1
      obtain ⟨j, hj, rfl⟩ := hx1
      simp at hx2
      exact hfresh j hj hx2
    · intro j hj hst
      rcases List.mem_append.mp hj with hold | hnew
      · exact hproc j hold hst
      · rw [List.mem_singleton] at hnew
        subst hnew
        cases hst
    · intro jid h
      obtain ⟨j, hj, hjid, hjst⟩ := hwait jid h
      exact ⟨j, List.mem_append_left _ hj, hjid, hjst⟩
    · show List.Pairwise _ (s.jobs ++ [⟨id, QStatus.pending⟩])
      rw [List.pairwise_append]
      refine ⟨hord, by simp, ?_⟩
      intro a _ b hb
      rw [List.mem_singleton] at hb
      subst hb
      intro hbst
      exact absurd rfl hbst
  | claimJob j hphase hfind =>
    have hndorig := hnd
    have hfind' : s.jobs.find? (fun k : QJob => k.status == QStatus.pending) = some j := hfind
    rw [List.find?_eq_some] at hfind'
    obtain ⟨hpend, as, bs, hsplit, hpre⟩ := hfind'
    rw [beq_iff_eq] at hpend
    rw [hsplit] at hnd hord
    rw [List.map_append, List.map_cons, List.nodup_append, List.nodup_cons] at hnd
    obtain ⟨hndas, ⟨hjbs, hndbs⟩, hdisj⟩ := hnd
    have ha : ∀ a ∈ as, a.id ≠ j.id := by
      intro a hamem heq
      exact (hdisj (List.mem_map_of_mem _ hamem)) (by rw [heq]; exact List.mem_cons_self _ _)
    have hb : ∀ b ∈ bs, b.id ≠ j.id := by
      intro b hbmem heq
      exact hjbs (heq ▸ List.mem_map_of_mem _ hbmem)
    have hset : setStatus s.jobs j.id QStatus.processing =
        as ++ { j with status := QStatus.processing } :: bs := by
      rw [hsplit]
      exact setStatus_split as bs j _ ha hb
    have hnoproc : ∀ x ∈ s.jobs, x.status ≠ QStatus.processing := by
      intro x hx hst
      have hw := hproc x hx hst
      rw [hphase] at hw
      simp at hw
    have hasterm : ∀ a ∈ as, a.status = QStatus.completed ∨ a.status = QStatus.failed := by
      intro a hamem
      have h1 : ¬ a.status = QStatus.pending := by
        have hx := hpre a hamem
        simp at hx
        exact hx
      have h2 : a.status ≠ QStatus.processing :=
        hnoproc a (by rw [hsplit]; exact List.mem_append_left _ hamem)
      cases hca : a.status
      · exact absurd hca h1
      · exact absurd hca h2
      · exact Or.inl rfl
      · exact Or.inr rfl
    have hordparts := List.pairwise_append.mp hord
    have hcons := List.pairwise_cons.mp hordparts.2.1
    refine ⟨?_, ?_, ?_, ?_⟩
    · show ((setStatus s.jobs j.id QStatus.processing).map _).Nodup
      rw [setStatus_id_map]
      exact hndorig
    · intro x hx hst
      show LoopPhase.waitingOn j.id = LoopPhase.waitingOn x.id
      rw [hset] at hx
      rcases List.mem_append.mp hx with hxas | hxcons
      · rcases hasterm x hxas with h | h <;> rw [h] at hst <;> simp at hst
      · rcases List.mem_cons.mp hxcons with rfl | hxbs
        · rfl
        · exact absurd hst (hnoproc x (by
            rw [hsplit]
            exact List.mem_append_right _ (List.mem_cons_of_mem _ hxbs)))
    · intro jid h
      injection h with he
      refine ⟨{ j with status := QStatus.processing }, ?_, he, rfl⟩
      show _ ∈ setStatus s.jobs j.id QStatus.processing
      rw [hset]
      exact List.mem_append_right _ (List.mem_cons_self _ _)
    · show List.Pairwise _ (setStatus s.jobs j.id QStatus.processing)
      rw [hset, List.pairwise_append]
      refine ⟨hordparts.1, ?_, ?_⟩
      · rw [List.pairwise_cons]
        constructor
        · intro y hy hyst
          have hjy := hcons.1 y hy hyst
          rw [hpend] at hjy
          rcases hjy with h | h <;> simp at h
        · exact hcons.2
      · intro a hamem b _ _
        exact hasterm a hamem
  | finishJob jid ok hphase =>
    have hndorig := hnd
    obtain ⟨u, humem, huid, hust⟩ := hwait jid hphase
    subst huid
    obtain ⟨cs, ds, hsplit⟩ := List.append_of_mem humem
    rw [hsplit] at hnd hord
    rw [List.map_append, List.map_cons, List.nodup_append, List.nodup_cons] at hnd
    obtain ⟨hndcs, ⟨hubs, hndds⟩, hdisj⟩ := hnd
    have ha : ∀ a ∈ cs, a.id ≠ u.id := by
      intro a hamem heq
      exact (hdisj (List.mem_map_of_mem _ hamem)) (by rw [heq]; exact List.mem_cons_self _ _)
    have hb : ∀ b ∈ ds, b.id ≠ u.id := by
      intro b hbmem heq
      exact hubs (heq ▸ List.mem_map_of_mem _ hbmem)
    have hset : setStatus s.jobs u.id (if ok then QStatus.completed else QStatus.failed) =
        cs ++ { u with status := if ok then QStatus.completed else QStatus.failed } :: ds := by
      rw [hsplit]
      exact setStatus_split cs ds u _ ha hb
    have hordparts := List.pairwise_append.mp hord
    have hcons := List.pairwise_cons.mp hordparts.2.1
    refine ⟨?_, ?_, ?_, ?_⟩
    · show ((setStatus s.jobs u.id _).map _).Nodup
      rw [setStatus_id_map]
      exact hndorig
    · intro x hx hst
      rw [hset] at hx
      rcases List.mem_append.mp hx with hxcs | hxcons
      · have hw := hproc x (by rw [hsplit]; exact List.mem_append_left _ hxcs) hst
        rw [hphase] at hw
        injection hw with he
        exact absurd he.symm (ha x hxcs)
      · rcases List.mem_cons.mp hxcons with rfl | hxds
        · cases ok <;> simp at hst
        · have hw := hproc x (by
            rw [hsplit]
            exact List.mem_append_right _ (List.mem_cons_of_mem _ hxds)) hst
          rw [hphase] at hw
          injection hw with he
          exact absurd he.symm (hb x hxds)
    · intro jid' h
      simp at h
    · show List.Pairwise _ (setStatus s.jobs u.id _)
      rw [hset, List.pairwise_append]
      refine ⟨hordparts.1, ?_, ?_⟩
      · rw [List.pairwise_cons]
        constructor
        · intro y _ _
          cases ok
          · exact Or.inr rfl
          · exact Or.inl rfl
        · exact hcons.2
      · intro a hamem y hy
        rcases List.mem_cons.mp hy with rfl | hyds
        · intro _
          have hne : u.status ≠ QStatus.pending := by
            rw [hust]
            simp
          exact hordparts.2.2 a hamem u (List.mem_cons_self _ _) hne
        · intro hyst
          exact hordparts.2.2 a hamem y (List.mem_cons_of_mem _ hyds) hyst
  | exitLoop hphase hnone =>
    refine ⟨hnd, ?_, ?_, hord⟩
    · intro x hx hst
      have hw := hproc x hx hst
      rw [hphase] at hw
      simp at hw
    · intro jid h
      simp at h

theorem qinv_reach {s : QState} (h : Reach s) : QInv s := by
  induction h with
  | init => exact qinv_init
  | next _ hstep ih => exact qinv_step ih hstep

/-! ## Claim C3 -/

/-- C3: in every reachable queue state, at most one job is `processing`
(first conjunct: any two processing jobs coincide — the drain loop is
single-flight, and a second loop can never start while one is active);
while the loop is inactive no job is processing (second conjunct); and
jobs are served strictly in submission order: whenever a later-submitted
job is `processing`, every earlier-submitted job has already reached a
terminal status, `completed` or `failed` (third conjunct, stated over
the insertion-ordered job list). -/
theorem c3_fifo_single_flight (s : QState) (hs : Reach s) :
    (∀ j1 ∈ s.jobs, ∀ j2 ∈ s.jobs, j1.status = QStatus.processing →
      j2.status = QStatus.processing → j1 = j2)
    ∧ (s.phase = LoopPhase.idle → ∀ j ∈ s.jobs, j.status ≠ QStatus.processing)
    ∧ s.jobs.Pairwise (fun a b => b.status = QStatus.processing →
        a.status = QStatus.completed ∨ a.status = QStatus.failed) := by
  obtain ⟨hnd, hproc, _, hord⟩ := qinv_reach hs
  refine ⟨?_, ?_, ?_⟩
  · intro j1 h1 j2 h2 hs1 hs2
    have hw1 := hproc j1 h1 hs1
    have hw2 := hproc j2 h2 hs2
    rw [hw1] at hw2
    injection hw2 with he
    exact List.inj_on_of_nodup_map hnd h1 h2 he
  · intro hidle j hj hst
    have hw := hproc j hj hst
    rw [hidle] at hw
    simp at hw
  · refine hord.imp ?_
    intro a b h hbst
    refine h ?_
    rw [hbst]
    simp

/-- C3 witness: `c3_fifo_single_flight` on the reachable state `sC`
(submit `j1`; the loop claims it; submit `j2` while busy). -/
theorem c3_fifo_single_flight_witness :
    (∀ j1 ∈ sC.jobs, ∀ j2 ∈ sC.jobs, j1.status = QStatus.processing →
      j2.status = QStatus.processing → j1 = j2)
    ∧ (sC.phase = LoopPhase.idle → ∀ j ∈ sC.jobs, j.status ≠ QStatus.processing)
    ∧ sC.jobs.Pairwise (fun a b => b.status = QStatus.processing →
        a.status = QStatus.completed ∨ a.status = QStatus.failed) :=
  c3_fifo_single_flight sC
    (Reach.next
      (Reach.next
        (Reach.next Reach.init
          (QStep.submit ⟨[], LoopPhase.idle⟩ "j1" (by intro j hj; cases hj) rfl))
        (QStep.claimJob _ ⟨"j1", QStatus.pending⟩ rfl rfl))
      (QStep.submitBusy _ "j2" (by decide) (by decide)))

/-! ## Claim C4 -/

/-- C4: along every step the engine takes from a reachable state, each
job's status only moves forward along
pending → processing → (completed | failed): its rank never decreases,
and once the status is `completed` or `failed` no step changes it. -/
theorem c4_status_monotonic (s s' : QState) (hs : Reach s) (hstep : QStep s s')
    (id : String) (st st' : QStatus)
    (h1 : statusOf s id = some st) (h2 : statusOf s' id = some st') :
    statusRank st ≤ statusRank st' ∧
    (st = QStatus.completed → st' = QStatus.completed) ∧
    (st = QStatus.failed → st' = QStatus.failed) := by
  obtain ⟨hnd, hproc, hwait, hord⟩ := qinv_reach hs
  unfold statusOf at h1 h2
  rw [Option.map_eq_some'] at h1 h2
  obtain ⟨j0, hfind0, hst0⟩ := h1
  cases hstep with
  | submit nid hfresh hidle =>
    have hfind2 : (s.jobs ++ [(⟨nid, QStatus.pending⟩ : QJob)]).find?
        (fun j => j.id == id) = some j0 := by
      rw [List.find?_append, hfind0]
      rfl
    obtain ⟨j1, hfind1, hst1⟩ := h2
    rw [hfind2] at hfind1
    injection hfind1 with hj
    subst hj
    rw [hst0] at hst1
    subst hst1
    exact ⟨Nat.le_refl _, fun h => h, fun h => h⟩
  | submitBusy nid hfresh hbusy =>
    have hfind2 : (s.jobs ++ [(⟨nid, QStatus.pending⟩ : QJob)]).find?
        (fun j => j.id == id) = some j0 := by
      rw [List.find?_append, hfind0]
      rfl
    obtain ⟨j1, hfind1, hst1⟩ := h2
    rw [hfind2] at hfind1
    injection hfind1 with hj
    subst hj
    rw [hst0] at hst1
    subst hst1
    exact ⟨Nat.le_refl _, fun h => h, fun h => h⟩
  | claimJob j hphase hfind =>
    obtain ⟨j1, hfind1, hst1⟩ := h2
    rw [find?_id_setStatus, hfind0] at hfind1
    simp only [Option.map_some'] at hfind1
    injection hfind1 with hj
    by_cases hid : (j0.id == j.id) = true
    · rw [if_pos hid] at hj
      have hfindp : s.jobs.find? (fun k : QJob => k.status == QStatus.pending) = some j :=
        hfind
      have hjmem : j ∈ s.jobs := List.mem_of_find?_eq_some hfindp
      have hjpend : (j.status == QStatus.pending) = true :=
        List.find?_some (p := fun k : QJob => k.status == QStatus.pending) hfindp
      rw [beq_iff_eq] at hjpend hid
      have hj0mem : j0 ∈ s.jobs := List.mem_of_find?_eq_some hfind0
      have hj0j : j0 = j := List.inj_on_of_nodup_map hnd hj0mem hjmem hid
      subst hj0j
      rw [← hj] at hst1
      rw [hjpend] at hst0
      subst hst0
      subst hst1
      refine ⟨by simp [statusRank], ?_, ?_⟩ <;> intro h <;> cases h
    · rw [if_neg hid] at hj
      rw [← hj] at hst1
      rw [hst0] at hst1
      subst hst1
      exact ⟨Nat.le_refl _, fun h => h, fun h => h⟩
  | finishJob jid ok hphase =>
    obtain ⟨u, humem, huid, hust⟩ := hwait jid hphase
    subst huid
    obtain ⟨j1, hfind1, hst1⟩ := h2
    rw [find?_id_setStatus, hfind0] at hfind1
    simp only [Option.map_some'] at hfind1
    injection hfind1 with hj
    by_cases hid : (j0.id == u.id) = true
    · rw [if_pos hid] at hj
      rw [beq_iff_eq] at hid
      have hj0mem : j0 ∈ s.jobs := List.mem_of_find?_eq_some hfind0
      have hj0u : j0 = u := List.inj_on_of_nodup_map hnd hj0mem humem hid
      subst hj0u
      rw [← hj] at hst1
      rw [hust] at hst0
      subst hst0
      subst hst1
      cases ok
      · refine ⟨by simp [statusRank], ?_, ?_⟩ <;> intro h <;> cases h
      · refine ⟨by simp [statusRank], ?_, ?_⟩ <;> intro h <;> cases h
    · rw [if_neg hid] at hj
      rw [← hj] at hst1
      rw [hst0] at hst1
      subst hst1
      exact ⟨Nat.le_refl _, fun h => h, fun h => h⟩
  | exitLoop hphase hnone =>
    obtain ⟨j1, hfind1, hst1⟩ := h2
    rw [hfind0] at hfind1
    injection hfind1 with hj
    subst hj
    rw [hst0] at hst1
    subst hst1
    exact ⟨Nat.le_refl _, fun h => h, fun h => h⟩

/-- C4 witness: `c4_status_monotonic` on the reachable state `sD` and
the step that finishes job `j1` successfully: processing → completed. -/
theorem c4_status_monotonic_witness :
    statusRank QStatus.processing ≤ statusRank QStatus.completed ∧
    (QStatus.processing = QStatus.completed → QStatus.completed = QStatus.completed) ∧
    (QStatus.processing = QStatus.failed → QStatus.completed = QStatus.failed) :=
  c4_status_monotonic sD ⟨[⟨"j1", QStatus.completed⟩], LoopPhase.scanning⟩
    (Reach.next
      (Reach.next Reach.init
        (QStep.submit ⟨[], LoopPhase.idle⟩ "j1" (by intro j hj; cases hj) rfl))
      (QStep.claimJob _ ⟨"j1", QStatus.pending⟩ rfl rfl))
    (QStep.finishJob sD "j1" true rfl)
    "j1" QStatus.processing QStatus.completed rfl rfl

/-! ## Claim C5 -/

theorem zipEntryFor_eq_some (env : ZipEnv) (userId fid : String)
    (e : String × String) :
    zipEntryFor env userId fid = some e ↔
      ∃ f : DbFile, getFileById env fid = some f ∧ f.user_id = userId ∧
        f.path ∈ env.disk ∧ e = (f.name, f.path) := by
  unfold zipEntryFor
  cases hdb : getFileById env fid with
  | none => simp
  | some f =>
    by_cases hu : f.user_id = userId
    · by_cases hd : f.path ∈ env.disk
      · simp [hu, hd, eq_comm]
      · simp [hu, hd]
    · simp [hu]

/-- C5: an archive job over requested file ids silently skips any id whose
metadata is missing, whose owner differs from the job's owner, or whose
blob no longer exists on disk; the archive contains entries, under their
original file names, for exactly the requested ids that pass all three
checks.  First conjunct: exact characterisation of the produced entries.
Second conjunct: the spec's example — for ids `[a, b, c]` where `b`
belongs to another user, only `a` and `c` are included. -/
theorem c5_zip_entry_characterisation :
    (∀ (env : ZipEnv) (fileIds : List String) (userId : String)
        (e : String × String),
      e ∈ zipEntries env fileIds userId ↔
        ∃ fid ∈ fileIds, ∃ f : DbFile,
          getFileById env fid = some f ∧ f.user_id = userId ∧
          f.path ∈ env.disk ∧ e = (f.name, f.path))
    ∧ zipEntries zenv ["a", "b", "c"] "owner" = [("a.pdf", "/za"), ("c.pdf", "/zc")] := by
  constructor
  · intro env fileIds userId e
    unfold zipEntries
    rw [List.mem_filterMap]
    constructor
    · rintro ⟨fid, hfid, hsome⟩
      rcases (zipEntryFor_eq_some env userId fid e).mp hsome with ⟨f, hdb, hu, hd, he⟩
      exact ⟨fid, hfid, f, hdb, hu, hd, he⟩
    · rintro ⟨fid, hfid, f, hdb, hu, hd, he⟩
      exact ⟨fid, hfid, (zipEntryFor_eq_some env userId fid e).mpr ⟨f, hdb, hu, hd, he⟩⟩
  · rfl

/-! ## Claim C6 -/

/-- C6: the stored checksum is NOT a function of the content bytes alone.
`uploadFile` computes `` `${file.size}_${file.name}_${Date.now()}` ``, so
uploading the identical bytes `[37, 80, 68]` under the identical name at
two different instants stores two different checksums, while the
repository's own documentation (docs/database.md: "`checksum` - SHA256
hash dla deduplication") and the spec mandate a content hash.  The first
two conjuncts evaluate the code at the failing input; the third is the
resulting violation of content-determinism. -/
theorem c6_checksum_not_content_determined :
    (uploadFile stRoot "u" "a.pdf" 3 "application/pdf" "r" "f1" [37, 80, 68] 0).1.checksum
        = "3_a.pdf_0" ∧
    (uploadFile ((uploadFile stRoot "u" "a.pdf" 3 "application/pdf" "r" "f1" [37, 80, 68] 0).2)
        "u" "a.pdf" 3 "application/pdf" "r" "f2" [37, 80, 68] 1).1.checksum
        = "3_a.pdf_1" ∧
    (uploadFile stRoot "u" "a.pdf" 3 "application/pdf" "r" "f1" [37, 80, 68] 0).1.checksum
      ≠ (uploadFile ((uploadFile stRoot "u" "a.pdf" 3 "application/pdf" "r" "f1" [37, 80, 68] 0).2)
        "u" "a.pdf" 3 "application/pdf" "r" "f2" [37, 80, 68] 1).1.checksum := by
  refine ⟨rfl, rfl, ?_⟩
  decide

/-! ## Claim C7 -/

/-- C7 counterexample: the claim states that a job failing while building
the container ends with `completed_at` set.  On the failure path the code
calls `updateZipJobStatus(jobId, 'failed')` with no download url, which
runs `UPDATE zip_jobs SET status = ? WHERE id = ?` — `completed_at`
remains NULL.  Evaluated on a processing row: the status becomes
`failed` and there is no handle, but `completed_at` is `none`, negating
the "with completed_at set" part of the claim. -/
theorem c7_counterexample :
    (zipJobFailurePath zrow 5).status = ZStatus.failed ∧
    (zipJobFailurePath zrow 5).download_url = none ∧
    (zipJobFailurePath zrow 5).completed_at = none := by
  decide

/-- C7 (amended): an archive job that fails while building the container
ends with status `failed`, with no download handle, and with
`completed_at` left unset (only the success path, which passes a
download url, sets `completed_at`); the partial output is never
referenced by a handle. -/
theorem c7_failed_job_record (row : ZipJobRow) (now : Nat)
    (hurl : row.download_url = none) (hts : row.completed_at = none) :
    (zipJobFailurePath row now).status = ZStatus.failed ∧
    (zipJobFailurePath row now).download_url = none ∧
    (zipJobFailurePath row now).completed_at = none := by
  unfold zipJobFailurePath updateZipJobStatus
  exact ⟨rfl, hurl, hts⟩

/-- C7 witness: `c7_failed_job_record` applied to the concrete processing
row. -/
theorem c7_failed_job_record_witness :
    zrow.download_url = none ∧ zrow.completed_at = none ∧
    ((zipJobFailurePath zrow 5).status = ZStatus.failed ∧
      (zipJobFailurePath zrow 5).download_url = none ∧
      (zipJobFailurePath zrow 5).completed_at = none) :=
  ⟨rfl, rfl, c7_failed_job_record zrow 5 rfl rfl⟩

/-! ## Claim C10 -/

/-- C10: the drain loop of `processQueue` terminates whenever each job
body does: each iteration moves the first pending job to a terminal
status, so the number of pending jobs strictly decreases (first
conjunct), and after at most `countPending` iterations the loop finds no
pending job and exits with the `processing` flag cleared (second
conjunct). -/
theorem c10_drain_terminates (res : String → Bool) :
    (∀ (jobs : List QJob) (j : QJob), firstPending jobs = some j →
      countPending (processJobRun res jobs j) < countPending jobs)
    ∧ ∀ s : QState,
        firstPending (processQueueRun res s).jobs = none ∧
        (processQueueRun res s).phase = LoopPhase.idle := by
  refine ⟨processJobRun_pending_decrease res, fun s => ⟨?_, rfl⟩⟩
  exact drainAux_exhausts res (countPending s.jobs) s.jobs (Nat.le_refl _)

/-! ## Claim C1 -/

/-- C1: a folder created through `createFolder` stores
`parent.path + parent.name + "/"` as its path when a parent id is given,
and `"/"` when none is; and the materialized-path invariant is preserved
by `createFolder` and by `deleteFolder` with its cascade, so every
folder's path stays consistent with its live parent chain after any
create or delete. -/
theorem c1_materialized_path (s : FMState) (uid nm : String)
    (parentId : Option String) (newId : String) :
    (∀ (f : Folder) (s' : FMState),
        createFolder s uid nm parentId newId = Except.ok (f, s') →
          f ∈ s'.folders ∧
          (parentId = none → f.path = "/") ∧
          (∀ pid, parentId = some pid →
            ∃ p ∈ s.folders, p.id = pid ∧ p.user_id = uid ∧
              f.path = p.path ++ p.name ++ "/") ∧
          (pathConsistent s → pathConsistent s'))
    ∧ (∀ fid, pathConsistent s → pathConsistent (deleteFolder s uid fid)) := by
  constructor
  · intro f s' h
    cases parentId with
    | none =>
      simp only [createFolder] at h
      injection h with h1
      injection h1 with hf hs
      subst hf
      subst hs
      refine ⟨by simp, fun _ => rfl, fun pid hpid => Option.noConfusion hpid, ?_⟩
      intro hc g hg
      unfold folderPathOk
      rcases List.mem_append.mp hg with hold | hnew
      · have hinv := hc g hold
        unfold folderPathOk at hinv
        cases hgp : g.parent_id with
        | none => rw [hgp] at hinv; exact hinv
        | some pid =>
          rw [hgp] at hinv
          obtain ⟨p, hpmem, hrest⟩ := hinv
          exact ⟨p, List.mem_append_left _ hpmem, hrest⟩
      · rw [List.mem_singleton] at hnew
        subst hnew
        rfl
    | some pid =>
      simp only [createFolder] at h
      cases hfind : s.folders.find? (fun g => g.id == pid && g.user_id == uid) with
      | none => rw [hfind] at h; cases h
      | some parent =>
        rw [hfind] at h
        injection h with h1
        injection h1 with hf hs
        subst hf
        subst hs
        have hmem : parent ∈ s.folders := List.mem_of_find?_eq_some hfind
        have hprop : (parent.id == pid && parent.user_id == uid) = true :=
          List.find?_some (p := fun g : Folder => g.id == pid && g.user_id == uid) hfind
        rw [Bool.and_eq_true, beq_iff_eq, beq_iff_eq] at hprop
        refine ⟨by simp, fun hpid => Option.noConfusion hpid, ?_, ?_⟩
        · intro pid' hpid'
          injection hpid' with hpe
          subst hpe
          exact ⟨parent, hmem, hprop.1, hprop.2, rfl⟩
        · intro hc g hg
          unfold folderPathOk
          rcases List.mem_append.mp hg with hold | hnew
          · have hinv := hc g hold
            unfold folderPathOk at hinv
            cases hgp : g.parent_id with
            | none => rw [hgp] at hinv; exact hinv
            | some pid' =>
              rw [hgp] at hinv
              obtain ⟨p, hpmem, hrest⟩ := hinv
              exact ⟨p, List.mem_append_left _ hpmem, hrest⟩
          · rw [List.mem_singleton] at hnew
            subst hnew
            exact ⟨parent, List.mem_append_left _ hmem, hprop.1, hprop.2, rfl⟩
  · intro fid hc
    unfold deleteFolder
    by_cases hguard : (s.folders.any (fun f => f.id == fid && f.user_id == uid)) = true
    · rw [if_pos hguard]
      intro g hg
      rw [List.mem_filter] at hg
      obtain ⟨hgmem, hgkeep⟩ := hg
      rw [decide_eq_true_eq] at hgkeep
      have hinv := hc g hgmem
      unfold folderPathOk at hinv ⊢
      cases hgp : g.parent_id with
      | none => rw [hgp] at hinv; exact hinv
      | some pid =>
        rw [hgp] at hinv
        obtain ⟨p, hpmem, hpid, hpuser, hpath⟩ := hinv
        refine ⟨p, ?_, hpid, hpuser, hpath⟩
        rw [List.mem_filter]
        refine ⟨hpmem, ?_⟩
        rw [decide_eq_true_eq]
        intro hpdead
        exact hgkeep (deletedIds_closed s fid g hgmem pid hgp (hpid ▸ hpdead))
    · rw [if_neg hguard]
      exact hc

/-- C1 witness: creating `Docs` under the root of `stRoot` yields the
stored path `"/Root/"` and a consistent state; deleting it preserves
consistency. -/
theorem c1_materialized_path_witness :
    pathConsistent stRootDocs ∧ pathConsistent (deleteFolder stRootDocs "u" "d") :=
  ⟨((c1_materialized_path stRoot "u" "Docs" (some "r") "d").1 docsFolder stRootDocs
      rfl).2.2.2 (by decide),
    (c1_materialized_path stRootDocs "u" "Docs" (some "r") "x").2 "d" (by decide)⟩

/-! ## Claim C8 -/

/-- C8 counterexample: deleting the folder `Docs` of `stWithFile`
cascades to the file row of `a.pdf`, but the blob
`u/f1_a.pdf` is still present in the storage bucket afterwards —
`deleteFolder` never touches storage, negating the claim's "including
each such file's underlying blob". -/
theorem c8_counterexample :
    (deleteFolder stWithFile "u" "d").folders = [⟨"r", "Root", none, "u", "/"⟩] ∧
    (deleteFolder stWithFile "u" "d").files = [] ∧
    ("u/f1_a.pdf", [37, 80, 68]) ∈ (deleteFolder stWithFile "u" "d").storage := by
  decide

/-- C8 (amended): deleting folder F removes F, every descendant folder
reachable via parent chains, and every file whose folder is F or a
descendant, leaving no folder or file record that references a deleted
id — but the underlying storage blobs of the cascade-deleted files are
NOT removed: storage is untouched. -/
theorem c8_cascade_delete (s : FMState) (uid fid : String)
    (hown : ∃ f ∈ s.folders, f.id = fid ∧ f.user_id = uid)
    (hparents : ∀ g ∈ s.folders, ∀ pid, g.parent_id = some pid →
      ∃ p ∈ s.folders, p.id = pid)
    (hfiles : ∀ fl ∈ s.files, ∃ g ∈ s.folders, g.id = fl.folder_id) :
    (∀ g ∈ (deleteFolder s uid fid).folders, ¬ InSubtree s.folders fid g.id)
    ∧ (∀ g ∈ (deleteFolder s uid fid).folders, ∀ pid, g.parent_id = some pid →
        ∃ p ∈ (deleteFolder s uid fid).folders, p.id = pid)
    ∧ (∀ fl ∈ (deleteFolder s uid fid).files, ¬ InSubtree s.folders fid fl.folder_id)
    ∧ (∀ fl ∈ (deleteFolder s uid fid).files,
        ∃ g ∈ (deleteFolder s uid fid).folders, g.id = fl.folder_id)
    ∧ (deleteFolder s uid fid).storage = s.storage := by
  have hguard : (s.folders.any (fun f => f.id == fid && f.user_id == uid)) = true := by
    rw [List.any_eq_true]
    obtain ⟨f, hf, hid, huid⟩ := hown
    exact ⟨f, hf, by simp [hid, huid]⟩
  unfold deleteFolder
  rw [if_pos hguard]
  refine ⟨?_, ?_, ?_, ?_, rfl⟩
  · intro g hg hsub
    rw [List.mem_filter] at hg
    obtain ⟨_, hgkeep⟩ := hg
    rw [decide_eq_true_eq] at hgkeep
    exact hgkeep (mem_deletedIds_of_inSubtree hsub)
  · intro g hg pid hgp
    rw [List.mem_filter] at hg
    obtain ⟨hgmem, hgkeep⟩ := hg
    rw [decide_eq_true_eq] at hgkeep
    obtain ⟨p, hpmem, hpid⟩ := hparents g hgmem pid hgp
    refine ⟨p, ?_, hpid⟩
    rw [List.mem_filter]
    refine ⟨hpmem, ?_⟩
    rw [decide_eq_true_eq]
    intro hpdead
    exact hgkeep (deletedIds_closed s fid g hgmem pid hgp (hpid ▸ hpdead))
  · intro fl hfl hsub
    rw [List.mem_filter] at hfl
    obtain ⟨_, hflkeep⟩ := hfl
    rw [decide_eq_true_eq] at hflkeep
    exact hflkeep (mem_deletedIds_of_inSubtree hsub)
  · intro fl hfl
    rw [List.mem_filter] at hfl
    obtain ⟨hflmem, hflkeep⟩ := hfl
    rw [decide_eq_true_eq] at hflkeep
    obtain ⟨g, hgmem, hgid⟩ := hfiles fl hflmem
    refine ⟨g, ?_, hgid⟩
    rw [List.mem_filter]
    refine ⟨hgmem, ?_⟩
    rw [decide_eq_true_eq]
    intro hgdead
    exact hflkeep (hgid ▸ hgdead)

/-- C8 witness: `c8_cascade_delete` on the concrete state `stWithFile`,
deleting `Docs`. -/
theorem c8_cascade_delete_witness :
    (∀ g ∈ (deleteFolder stWithFile "u" "d").folders,
      ¬ InSubtree stWithFile.folders "d" g.id)
    ∧ (∀ g ∈ (deleteFolder stWithFile "u" "d").folders, ∀ pid,
        g.parent_id = some pid →
        ∃ p ∈ (deleteFolder stWithFile "u" "d").folders, p.id = pid)
    ∧ (∀ fl ∈ (deleteFolder stWithFile "u" "d").files,
        ¬ InSubtree stWithFile.folders "d" fl.folder_id)
    ∧ (∀ fl ∈ (deleteFolder stWithFile "u" "d").files,
        ∃ g ∈ (deleteFolder stWithFile "u" "d").folders, g.id = fl.folder_id)
    ∧ (deleteFolder stWithFile "u" "d").storage = stWithFile.storage :=
  c8_cascade_delete stWithFile "u" "d" (by decide)
    (by
      intro g hg pid hpid
      simp only [stWithFile, List.mem_cons, List.not_mem_nil, or_false] at hg
      rcases hg with rfl | rfl
      · cases hpid
      · injection hpid with hpe
        exact ⟨⟨"r", "Root", none, "u", "/"⟩, by simp [stWithFile], hpe⟩)
    (by decide)

/-! ## Claim C9 -/

/-- C9 counterexample: deleting the root folder is not rejected —
`deleteFolder` has no root check, so on `stWithFile` it succeeds and
removes the entire tree, while the claim requires an error and an
unchanged tree. -/
theorem c9_counterexample :
    (deleteFolder stWithFile "u" "r").folders = [] ∧ stWithFile.folders ≠ [] := by
  decide

/-- C9 (amended): deleting the root folder is NOT rejected: `deleteFolder`
performs no root check, and deleting the root cascade-removes the user's
entire folder tree; the only guard in the repository is the UI of
`FolderTree.tsx`, which hides the delete control for folders named
`Root` (no error is ever raised). -/
theorem c9_root_delete_cascades (s : FMState) (uid : String) (root : Folder)
    (hmem : root ∈ s.folders) (hname : root.name = "Root")
    (huid : root.user_id = uid)
    (hall : ∀ g ∈ s.folders, InSubtree s.folders root.id g.id) :
    (deleteFolder s uid root.id).folders = [] ∧ uiShowsDelete root = false := by
  have hguard : (s.folders.any (fun f => f.id == root.id && f.user_id == uid)) = true := by
    rw [List.any_eq_true]
    exact ⟨root, hmem, by simp [huid]⟩
  constructor
  · unfold deleteFolder
    rw [if_pos hguard]
    rw [List.filter_eq_nil_iff]
    intro g hg
    simp only [decide_eq_true_eq, Decidable.not_not]
    exact mem_deletedIds_of_inSubtree (hall g hg)
  · unfold uiShowsDelete
    rw [hname]
    rfl

/-- C9 witness: `c9_root_delete_cascades` on `stWithFile`: the whole tree
of user `u` disappears. -/
theorem c9_root_delete_cascades_witness :
    (deleteFolder stWithFile "u" "r").folders = [] ∧
    uiShowsDelete ⟨"r", "Root", none, "u", "/"⟩ = false :=
  c9_root_delete_cascades stWithFile "u" ⟨"r", "Root", none, "u", "/"⟩
    (by decide) rfl rfl
    (by
      intro g hg
      simp only [stWithFile, List.mem_cons, List.not_mem_nil, or_false] at hg
      rcases hg with rfl | rfl
      · exact InSubtree.base
      · exact InSubtree.step (by simp [stWithFile]) rfl InSubtree.base)

/-- C10 witness: `c10_drain_terminates` on a queue holding one pending
job. -/
theorem c10_drain_terminates_witness :
    firstPending [⟨"a", QStatus.pending⟩] = some ⟨"a", QStatus.pending⟩ ∧
    countPending (processJobRun (fun _ => true) [⟨"a", QStatus.pending⟩]
      ⟨"a", QStatus.pending⟩) < countPending [⟨"a", QStatus.pending⟩] ∧
    firstPending (processQueueRun (fun _ => true)
      ⟨[⟨"a", QStatus.pending⟩], LoopPhase.scanning⟩).jobs = none :=
  ⟨rfl,
    (c10_drain_terminates (fun _ => true)).1 _ _ rfl,
    ((c10_drain_terminates (fun _ => true)).2 ⟨[⟨"a", QStatus.pending⟩], LoopPhase.scanning⟩).1⟩

/-! ## Claim C2: string-order lemmas -/

theorem strLe_refl (l : List Char) : strLe l l = true := by
  induction l with
  | nil => rfl
  | cons a t ih =>
    unfold strLe
    rw [if_neg (lt_irrefl a), if_neg (lt_irrefl a)]
    exact ih

theorem strLe_total (l r : List Char) : strLe l r = true ∨ strLe r l = true := by
  induction l generalizing r with
  | nil => exact Or.inl rfl
  | cons a as ih =>
    cases r with
    | nil => exact Or.inr rfl
    | cons b bs =>
      rcases lt_trichotomy a b with h | h | h
      · left
        unfold strLe
        rw [if_pos h]
      · subst h
        unfold strLe
        rw [if_neg (lt_irrefl a), if_neg (lt_irrefl a), if_neg (lt_irrefl a),
          if_neg (lt_irrefl a)]
        exact ih bs
      · right
        unfold strLe
        rw [if_pos h]

theorem strLe_antisymm : ∀ {l r : List Char},
    strLe l r = true → strLe r l = true → l = r := by
  intro l
  induction l with
  | nil =>
    intro r _ hrl
    cases r with
    | nil => rfl
    | cons b bs => exact absurd hrl (by simp [strLe])
  | cons a as ih =>
    intro r hlr hrl
    cases r with
    | nil => exact absurd hlr (by simp [strLe])
    | cons b bs =>
      unfold strLe at hlr hrl
      rcases lt_trichotomy a b with h | h | h
      · rw [if_neg (lt_asymm h), if_pos h] at hrl
        cases hrl
      · subst h
        rw [if_neg (lt_irrefl a), if_neg (lt_irrefl a)] at hlr hrl
        rw [ih hlr hrl]
      · rw [if_neg (lt_asymm h), if_pos h] at hlr
        cases hlr

theorem strLe_trans : ∀ {x y z : List Char},
    strLe x y = true → strLe y z = true → strLe x z = true := by
  intro x
  induction x with
  | nil => intro y z _ _; rfl
  | cons a as ih =>
    intro y z hxy hyz
    cases y with
    | nil => exact absurd hxy (by simp [strLe])
    | cons b bs =>
      cases z with
      | nil => exact absurd hyz (by simp [strLe])
      | cons c cs =>
        unfold strLe at hxy hyz ⊢
        rcases lt_trichotomy a b with hab | hab | hab
        · rcases lt_trichotomy b c with hbc | hbc | hbc
          · rw [if_pos (lt_trans hab hbc)]
          · subst hbc
            rw [if_pos hab]
          · rcases lt_trichotomy a c with hac | hac | hac
            · rw [if_pos hac]
            · subst hac
              rw [if_neg (lt_asymm hbc), if_pos hbc] at hyz
              cases hyz
            · rw [if_neg (lt_asymm hbc), if_pos hbc] at hyz
              cases hyz
        · subst hab
          rcases lt_trichotomy a c with hac | hac | hac
          · rw [if_pos hac]
          · subst hac
            rw [if_neg (lt_irrefl a), if_neg (lt_irrefl a)] at hxy hyz ⊢
            exact ih hxy hyz
          · rw [if_neg (lt_asymm hac), if_pos hac] at hyz
            cases hyz
        · rw [if_neg (lt_asymm hab), if_pos hab] at hxy
          cases hxy

theorem strLe_of_append (l r : List Char) : strLe l (l ++ r) = true := by
  induction l with
  | nil => rfl
  | cons a t ih =>
    show strLe (a :: t) (a :: (t ++ r)) = true
    unfold strLe
    rw [if_neg (lt_irrefl a), if_neg (lt_irrefl a)]
    exact ih

/-! ## Claim C2: path-splitting lemmas -/

theorem splitSlash_ne_nil (l : List Char) : splitSlash l ≠ [] := by
  cases l with
  | nil => simp [splitSlash]
  | cons c cs =>
    unfold splitSlash
    by_cases h : c = '/'
    · rw [if_pos h]
      simp
    · rw [if_neg h]
      cases splitSlash cs <;> simp

theorem splitSlash_cons_ne (c : Char) (l : List Char) (hc : c ≠ '/')
    (hh : List Char) (ht : List (List Char)) (hl : splitSlash l = hh :: ht) :
    splitSlash (c :: l) = (c :: hh) :: ht := by
  unfold splitSlash
  rw [if_neg hc, hl]

theorem splitSlash_append_slash (l r : List Char) :
    splitSlash (l ++ '/' :: r) = splitSlash l ++ splitSlash r := by
  induction l with
  | nil => rfl
  | cons c cs ih =>
    by_cases h : c = '/'
    · subst h
      show splitSlash ('/' :: (cs ++ '/' :: r)) = splitSlash ('/' :: cs) ++ splitSlash r
      rw [show splitSlash ('/' :: (cs ++ '/' :: r)) = [] :: splitSlash (cs ++ '/' :: r) from rfl,
        show splitSlash ('/' :: cs) = [] :: splitSlash cs from rfl, ih]
      rfl
    · obtain ⟨hh, ht, hsp⟩ : ∃ hh ht, splitSlash cs = hh :: ht := by
        cases hsp : splitSlash cs with
        | nil => exact absurd hsp (splitSlash_ne_nil cs)
        | cons hh ht => exact ⟨hh, ht, rfl⟩
      have h1 : splitSlash (cs ++ '/' :: r) = hh :: (ht ++ splitSlash r) := by
        rw [ih, hsp]
        rfl
      have h2 := splitSlash_cons_ne c _ h hh (ht ++ splitSlash r) h1
      have h3 := splitSlash_cons_ne c cs h hh ht hsp
      show splitSlash (c :: (cs ++ '/' :: r)) = splitSlash (c :: cs) ++ splitSlash r
      rw [h2, h3]
      rfl

theorem splitSlash_no_slash (l : List Char) (hne : l ≠ []) (hns : '/' ∉ l) :
    splitSlash l = [l] := by
  induction l with
  | nil => exact absurd rfl hne
  | cons c cs ih =>
    have hc : c ≠ '/' := by
      intro h
      exact hns (h ▸ List.mem_cons_self c cs)
    cases hcs : cs with
    | nil =>
      subst hcs
      exact splitSlash_cons_ne c [] hc [] [] rfl
    | cons d ds =>
      subst hcs
      exact splitSlash_cons_ne c (d :: ds) hc (d :: ds) [] 
        (ih (by simp) (fun hm => hns (List.mem_cons_of_mem c hm)))

theorem segsOf_append (p n : String) (hp : ∃ l, p.data = l ++ ['/'])
    (hne : n.data ≠ []) (hns : '/' ∉ n.data) :
    segsOf (p ++ n ++ "/") = segsOf p ++ [n] := by
  obtain ⟨l, hl⟩ := hp
  have hdata : (p ++ n ++ "/").data = l ++ '/' :: (n.data ++ '/' :: []) := by
    rw [String.data_append, String.data_append, hl]
    show (l ++ ['/']) ++ n.data ++ ['/'] = l ++ '/' :: (n.data ++ '/' :: [])
    simp
  have hpd : p.data = l ++ '/' :: [] := by rw [hl]
  unfold segsOf
  rw [hdata, hpd, splitSlash_append_slash l (n.data ++ '/' :: []),
    splitSlash_append_slash n.data [], splitSlash_no_slash n.data hne hns,
    splitSlash_append_slash l []]
  rw [show splitSlash ([] : List Char) = [[]] from rfl]
  rw [List.filter_append, List.filter_append, List.filter_append]
  simp [hne]

/-! ## Claim C2: the ancestor chain determines the path segments -/

theorem chain_facts (s : FMState) (hcons : pathConsistent s)
    (hids : (s.folders.map (fun g => g.id)).Nodup)
    (hgood : ∀ g ∈ s.folders, g.name.data ≠ [] ∧ '/' ∉ g.name.data) :
    ∀ {c : List Folder} {f : Folder}, ChainTo s c f → f ∈ s.folders →
      segsOf f.path = c.map (fun g => g.name) ∧
      (∃ l, f.path.data = l ++ ['/']) ∧
      (∀ a ∈ c, a ∈ s.folders) ∧
      (∀ a ∈ c, ∃ ext, ext ≠ [] ∧ f.path.data = a.path.data ++ ext) ∧
      c.Pairwise (fun a b => ∃ ext, ext ≠ [] ∧ b.path.data = a.path.data ++ ext) := by
  intro c f hch
  induction hch with
  | root hparent =>
    rename_i g
    intro hmem
    have hpath := hcons _ hmem
    unfold folderPathOk at hpath
    rw [hparent] at hpath
    have hpath' : g.path = "/" := hpath
    rw [hpath']
    refine ⟨rfl, ⟨[], rfl⟩, ?_, ?_, List.Pairwise.nil⟩ <;> intro a ha <;> cases ha
  | step hpmem hparent hch ih =>
    rename_i c0 p0 g
    intro hmem
    obtain ⟨hsegs, hslash, hcmem, hpref, hcpair⟩ := ih hpmem
    have hpath := hcons _ hmem
    unfold folderPathOk at hpath
    rw [hparent] at hpath
    obtain ⟨q, hqmem, hqid, hquser, hfq⟩ := hpath
    have hqp : p0 = q := (List.inj_on_of_nodup_map hids hqmem hpmem hqid).symm
    subst hqp
    have hgp := hgood p0 hpmem
    have hsegf : segsOf g.path = segsOf p0.path ++ [p0.name] := by
      rw [hfq]
      exact segsOf_append p0.path p0.name hslash hgp.1 hgp.2
    have hfdata : g.path.data = p0.path.data ++ (p0.name.data ++ ['/']) := by
      rw [hfq, String.data_append, String.data_append]
      simp
    refine ⟨?_, ?_, ?_, ?_, ?_⟩
    · rw [hsegf, hsegs, List.map_append]
      rfl
    · exact ⟨p0.path.data ++ p0.name.data, by rw [hfdata]; simp⟩
    · intro a ha
      rcases List.mem_append.mp ha with h | h
      · exact hcmem a h
      · rw [List.mem_singleton] at h
        subst h
        exact hpmem
    · intro a ha
      rcases List.mem_append.mp ha with h | h
      · obtain ⟨ext, hene, hexteq⟩ := hpref a h
        refine ⟨ext ++ (p0.name.data ++ ['/']), by simp [hene], ?_⟩
        rw [hfdata, hexteq]
        simp
      · rw [List.mem_singleton] at h
        rw [h]
        exact ⟨p0.name.data ++ ['/'], by simp, hfdata⟩
    · rw [List.pairwise_append]
      refine ⟨hcpair, List.pairwise_singleton _ _, ?_⟩
      intro a ha b hb
      rw [List.mem_singleton] at hb
      subst hb
      exact hpref a ha

/-! ## Claim C2: ordering by path -/

theorem insertByPath_perm (f : Folder) (l : List Folder) :
    (insertByPath f l).Perm (f :: l) := by
  induction l with
  | nil => exact List.Perm.refl _
  | cons g t ih =>
    unfold insertByPath
    by_cases h : strLe f.path.data g.path.data = true
    · rw [if_pos h]
    · rw [if_neg h]
      exact (List.Perm.cons g ih).trans (List.Perm.swap f g t)

theorem orderByPath_perm (l : List Folder) : (orderByPath l).Perm l := by
  induction l with
  | nil => exact List.Perm.refl _
  | cons f t ih =>
    unfold orderByPath
    exact (insertByPath_perm f (orderByPath t)).trans (List.Perm.cons f ih)

theorem insertByPath_pairwise (f : Folder) (l : List Folder)
    (h : l.Pairwise (fun a b => strLe a.path.data b.path.data = true)) :
    (insertByPath f l).Pairwise (fun a b => strLe a.path.data b.path.data = true) := by
  induction l with
  | nil => exact List.pairwise_singleton _ _
  | cons g t ih =>
    rw [List.pairwise_cons] at h
    unfold insertByPath
    by_cases hle : strLe f.path.data g.path.data = true
    · rw [if_pos hle]
      rw [List.pairwise_cons]
      refine ⟨?_, List.pairwise_cons.mpr h⟩
      intro x hx
      rcases List.mem_cons.mp hx with rfl | hxt
      · exact hle
      · exact strLe_trans hle (h.1 x hxt)
    · rw [if_neg hle]
      rw [List.pairwise_cons]
      refine ⟨?_, ih h.2⟩
      intro x hx
      have hx' := (insertByPath_perm f t).mem_iff.mp hx
      rcases List.mem_cons.mp hx' with rfl | hxt
      · rcases strLe_total x.path.data g.path.data with hxg | hgx
        · exact absurd hxg hle
        · exact hgx
      · exact h.1 x hxt

theorem orderByPath_pairwise (l : List Folder) :
    (orderByPath l).Pairwise (fun a b => strLe a.path.data b.path.data = true) := by
  induction l with
  | nil => exact List.Pairwise.nil
  | cons f t ih => exact insertByPath_pairwise f (orderByPath t) ih

theorem sorted_key_perm_eq {α : Type} (key : α → List Char) :
    ∀ (l₁ l₂ : List α), l₁.Perm l₂ →
      l₁.Pairwise (fun a b => strLe (key a) (key b) = true) →
      l₂.Pairwise (fun a b => strLe (key a) (key b) = true) →
      (l₁.map key).Nodup → l₁ = l₂ := by
  intro l₁
  induction l₁ with
  | nil =>
    intro l₂ hperm _ _ _
    rw [hperm.symm.eq_nil]
  | cons a t ih =>
    intro l₂ hperm h1 h2 hnd
    cases l₂ with
    | nil => exact absurd hperm.eq_nil (by simp)
    | cons b t₂ =>
      rw [List.pairwise_cons] at h1 h2
      have hab : a = b := by
        rcases List.mem_cons.mp (hperm.mem_iff.mp (List.mem_cons_self a t)) with h | hat2
        · exact h
        · rcases List.mem_cons.mp (hperm.symm.mem_iff.mp (List.mem_cons_self b t₂)) with h | hbt
          · exact h.symm
          · have hk : key a = key b :=
              strLe_antisymm (h1.1 b hbt) (h2.1 a hat2)
            exact List.inj_on_of_nodup_map hnd (List.mem_cons_self a t)
              (List.mem_cons_of_mem a hbt) hk
      subst hab
      rw [List.map_cons, List.nodup_cons] at hnd
      rw [ih t₂ hperm.cons_inv h1.2 h2.2 hnd.2]

/-! ## Claim C2: main results -/

/-- C2 counterexample: breadcrumbs resolves the path segments of the
folder BY NAME (`.in('name', pathParts)`), so any folder sharing a name
with a segment is included.  In `stDupName` the folder `x` (named
`Root`, a CHILD of `Docs`) appears in the breadcrumbs of `Docs`,
although the only ancestor of `Docs` is the root `r` (second conjunct:
the true ancestor chain is `[r]`); the produced sequence therefore
differs from ancestors-plus-self (third conjunct). -/
theorem c2_counterexample :
    getFolderBreadcrumbs stDupName "u" "d" =
      Except.ok [⟨"r", "Root", "/"⟩, ⟨"x", "Root", "/Root/Docs/"⟩, ⟨"d", "Docs", "/Root/"⟩]
    ∧ ChainTo stDupName [⟨"r", "Root", none, "u", "/"⟩] ⟨"d", "Docs", some "r", "u", "/Root/"⟩
    ∧ ([⟨"r", "Root", "/"⟩, ⟨"x", "Root", "/Root/Docs/"⟩, ⟨"d", "Docs", "/Root/"⟩] : List Crumb) ≠
        [⟨"r", "Root", "/"⟩, ⟨"d", "Docs", "/Root/"⟩] := by
  refine ⟨rfl, ?_, by decide⟩
  exact ChainTo.step (by simp [stDupName]) rfl (ChainTo.root rfl)

/-- C2 (amended): provided each folder name of the owner is unique (so
every path segment resolves to exactly one folder record — the code
matches segments by name), the breadcrumbs of a folder F are exactly
F's ancestors, ordered from the root down to F's parent, followed by F
itself.  Without that uniqueness the code also returns unrelated
folders that share a name with a segment (see the counterexample). -/
theorem c2_breadcrumbs (s : FMState) (uid : String) (f : Folder) (c : List Folder)
    (hmem : f ∈ s.folders)
    (hids : (s.folders.map (fun g => g.id)).Nodup)
    (hnames : (s.folders.map (fun g => g.name)).Nodup)
    (hsame : ∀ g ∈ s.folders, g.user_id = uid)
    (hgood : ∀ g ∈ s.folders, g.name.data ≠ [] ∧ '/' ∉ g.name.data)
    (hcons : pathConsistent s)
    (hchain : ChainTo s c f) :
    getFolderBreadcrumbs s uid f.id =
      Except.ok (c.map (fun g => (⟨g.id, g.name, g.path⟩ : Crumb)) ++
        [⟨f.id, f.name, f.path⟩]) := by
  have hfind : s.folders.find? (fun g => g.id == f.id && g.user_id == uid) = some f := by
    have hex : ∃ x ∈ s.folders, (x.id == f.id && x.user_id == uid) = true :=
      ⟨f, hmem, by simp [hsame f hmem]⟩
    rw [← List.find?_isSome] at hex
    obtain ⟨g, hg⟩ := Option.isSome_iff_exists.mp hex
    have hgmem : g ∈ s.folders := List.mem_of_find?_eq_some hg
    have hgp : (g.id == f.id && g.user_id == uid) = true :=
      List.find?_some (p := fun x : Folder => x.id == f.id && x.user_id == uid) hg
    rw [Bool.and_eq_true, beq_iff_eq, beq_iff_eq] at hgp
    have hgf : g = f := List.inj_on_of_nodup_map hids hgmem hmem hgp.1
    rw [hg, hgf]
  obtain ⟨hsegs, _, hcmem, _, hcpair⟩ := chain_facts s hcons hids hgood hchain hmem
  simp only [getFolderBreadcrumbs, hfind]
  cases c with
  | nil =>
    simp only [List.map_nil] at hsegs
    rw [hsegs]
    simp
  | cons c1 crest =>
    have hlen : (segsOf f.path).length > 0 := by
      rw [hsegs]
      simp
    rw [if_pos hlen]
    have hmemiff : ∀ x, x ∈ s.folders.filter
        (fun g => g.user_id == uid && decide (g.name ∈ segsOf f.path)) ↔
          x ∈ c1 :: crest := by
      intro x
      rw [List.mem_filter]
      constructor
      · rintro ⟨hxmem, hxp⟩
        rw [Bool.and_eq_true, beq_iff_eq, decide_eq_true_eq] at hxp
        have hxn := hxp.2
        rw [hsegs] at hxn
        rw [List.mem_map] at hxn
        obtain ⟨a, hac, hname⟩ := hxn
        have hxa : x = a :=
          List.inj_on_of_nodup_map hnames hxmem (hcmem a hac) hname.symm
        rw [hxa]
        exact hac
      · intro hxc
        have hxmem := hcmem x hxc
        refine ⟨hxmem, ?_⟩
        rw [Bool.and_eq_true, beq_iff_eq, decide_eq_true_eq]
        refine ⟨hsame x hxmem, ?_⟩
        rw [hsegs]
        exact List.mem_map_of_mem _ hxc
    have hfilnd : (s.folders.filter
        (fun g => g.user_id == uid && decide (g.name ∈ segsOf f.path))).Nodup :=
      List.Nodup.filter _ (List.Nodup.of_map _ hids)
    have hcnd : (c1 :: crest).Nodup := by
      refine hcpair.imp ?_
      intro a b hex hab
      obtain ⟨ext, hene, heq⟩ := hex
      rw [hab] at heq
      exact hene (List.self_eq_append_right.mp heq)
    have hperm : (s.folders.filter
        (fun g => g.user_id == uid && decide (g.name ∈ segsOf f.path))).Perm
          (c1 :: crest) :=
      (List.perm_ext_iff_of_nodup hfilnd hcnd).mpr hmemiff
    have hcle : (c1 :: crest).Pairwise
        (fun a b => strLe a.path.data b.path.data = true) := by
      refine hcpair.imp ?_
      intro a b hex
      obtain ⟨ext, _, heq⟩ := hex
      rw [heq]
      exact strLe_of_append _ _
    have hkeynd : ((c1 :: crest).map (fun g => g.path.data)).Nodup := by
      refine List.pairwise_map.mpr (hcpair.imp ?_)
      intro a b hex hk
      obtain ⟨ext, hene, heq⟩ := hex
      rw [← hk] at heq
      exact hene (List.self_eq_append_right.mp heq)
    have hsort : (c1 :: crest) = orderByPath (s.folders.filter
        (fun g => g.user_id == uid && decide (g.name ∈ segsOf f.path))) :=
      sorted_key_perm_eq (fun g => g.path.data) _ _
        (hperm.symm.trans (orderByPath_perm _).symm) hcle
        (orderByPath_pairwise _) hkeynd
    rw [← hsort]

/-- C2 witness: `c2_breadcrumbs` on `stWithFile` (unique names): the
breadcrumbs of `Docs` are exactly `[Root, Docs]`. -/
theorem c2_breadcrumbs_witness :
    getFolderBreadcrumbs stWithFile "u" "d" =
      Except.ok [⟨"r", "Root", "/"⟩, ⟨"d", "Docs", "/Root/"⟩] :=
  c2_breadcrumbs stWithFile "u" ⟨"d", "Docs", some "r", "u", "/Root/"⟩
    [⟨"r", "Root", none, "u", "/"⟩]
    (by decide) (by decide) (by decide) (by decide) (by decide) (by decide)
    (ChainTo.step (by simp [stWithFile]) rfl (ChainTo.root rfl))

end FM
